import Mathlib

/-!
Shallow embedding of the Base64 codec of the `base64` and `qbase64` binaries
(`src/base64/src/main.rs`, `src/qbase64/src/main.rs`).

Bytes are modelled as `Nat` (values < 256 where byte-ness matters); the Rust
`u32` accumulators are modelled as `Nat` (all intermediate values provably
stay below 2^24, so `u32` wrap-around never occurs and no `% 2^32` is needed).
Fallible Rust functions returning `Result` are modelled with `Except String`;
the source's single error value is the string "invalid input".
-/

namespace Qoreutils.Base64

/-- The 64-entry alphabet `B64TABLE` from `src/base64/src/main.rs` lines 6-11
(identical in `src/qbase64/src/main.rs` lines 7-12). -/
def B64TABLE : List Char :=
  ['A', 'B', 'C', 'D', 'E', 'F', 'G', 'H', 'I', 'J', 'K', 'L', 'M', 'N', 'O', 'P', 'Q', 'R', 'S',
   'T', 'U', 'V', 'W', 'X', 'Y', 'Z', 'a', 'b', 'c', 'd', 'e', 'f', 'g', 'h', 'i', 'j', 'k', 'l',
   'm', 'n', 'o', 'p', 'q', 'r', 's', 't', 'u', 'v', 'w', 'x', 'y', 'z', '0', '1', '2', '3', '4',
   '5', '6', '7', '8', '9', '+', '/']

/-- The byte values of the table symbols, as compared against input bytes by
`(x as u8) == *c` in the source. -/
def tableCodes : List Nat := B64TABLE.map Char.toNat

/-- The pad symbol `'=' as u8` (byte 61). -/
def padByte : Nat := Char.toNat '='

/-- Rust `slice::chunks(3)`: consecutive groups of 3, last group possibly
shorter; an empty slice yields no chunks. -/
def chunks3 : List Nat → List (List Nat)
  | [] => []
  | [a] => [[a]]
  | [a, b] => [[a, b]]
  | a :: b :: c :: rest => [a, b, c] :: chunks3 rest

/-- Rust `slice::chunks(4)`: consecutive groups of 4, last group possibly
shorter; an empty slice yields no chunks. -/
def chunks4 : List Nat → List (List Nat)
  | [] => []
  | [a] => [[a]]
  | [a, b] => [[a, b]]
  | [a, b, c] => [[a, b, c]]
  | a :: b :: c :: d :: rest => [a, b, c, d] :: chunks4 rest

/-- The body of the `chunks.for_each` closure in `encode`
(`src/base64/src/main.rs` lines 120-135): pack the `l` bytes of the chunk into
a 24-bit accumulator at bit offsets `16 - 8*i`, emit `l+1` symbols obtained by
masking with `63 << (18 - 6*i)`, then append `3 - l` pad symbols. -/
def encodeChunk (chunk : List Nat) : List Nat :=
  let l := chunk.length
  let b3 := (List.range l).foldl (fun b3 i => b3 ||| ((chunk.getD i 0) <<< (16 - i * 8))) 0
  ((List.range (l + 1)).map (fun i =>
    let shift := 18 - i * 6
    Char.toNat (B64TABLE.getD ((b3 &&& (63 <<< shift)) >>> shift) 'A')))
  ++ List.replicate (3 - l) padByte

/-- The byte sequence accumulated in `encoded` by `encode`. -/
def encodeOut (input : List Nat) : List Nat :=
  ((chunks3 input).map encodeChunk).flatten

/-- `encode` from `src/base64/src/main.rs` lines 117-137: chunk the input by
3, process every chunk, and return `Ok(encoded)` (the function has no error
path). -/
def encode (input : List Nat) : Except String (List Nat) :=
  Except.ok (encodeOut input)

/-- The first `for` loop of the `try_for_each` closure in `decode`
(`src/base64/src/main.rs` lines 93-104): walk the chunk with its index `i`;
a pad byte increments `pad_count` and is skipped; any other byte is looked up
in `B64TABLE` by `iter().position(|&x| (x as u8) == *c)` and its index is
OR-ed into the accumulator at offset `18 - i*6`; a byte outside the table
aborts with `Err("invalid input")`. -/
def scanGroup : List Nat → Nat → Nat → Nat → Except String (Nat × Nat)
  | [], _, encoded, padCount => Except.ok (encoded, padCount)
  | c :: rest, i, encoded, padCount =>
    if c = padByte then
      scanGroup rest (i + 1) encoded (padCount + 1)
    else
      match B64TABLE.findIdx? (fun x => x.toNat == c) with
      | some v => scanGroup rest (i + 1) (encoded ||| (v <<< (18 - i * 6))) padCount
      | none => Except.error "invalid input"

/-- One iteration of the `try_for_each` closure in `decode`
(`src/base64/src/main.rs` lines 91-112): scan the chunk, then emit
`3 - pad_count` bytes at offsets `16 - 8*i` masked with `255`.  In the Rust
source `pad_count` has inferred type `i32`, so `0..(3 - pad_count)` is the
empty range whenever `pad_count ≥ 3`; `Nat` truncated subtraction
`3 - padCount` yields exactly the same iteration count. -/
def decodeChunk (chunk : List Nat) : Except String (List Nat) :=
  match scanGroup chunk 0 0 0 with
  | Except.error e => Except.error e
  | Except.ok (encoded, padCount) =>
    Except.ok ((List.range (3 - padCount)).map (fun i =>
      let shift := 16 - i * 8
      (encoded &&& (255 <<< shift)) >>> shift))

/-- The `try_for_each` over the 4-chunks in `decode`: fail on the first chunk
that fails, otherwise concatenate all decoded bytes (pushed into `decoded`). -/
def decodeGroups : List (List Nat) → Except String (List Nat)
  | [] => Except.ok []
  | g :: gs =>
    match decodeChunk g with
    | Except.error e => Except.error e
    | Except.ok bytes =>
      match decodeGroups gs with
      | Except.error e => Except.error e
      | Except.ok rest => Except.ok (bytes ++ rest)

/-- `decode` from `src/base64/src/main.rs` lines 87-115: chunk the input by 4
(the final chunk may be short — the function performs no length validation)
and run the per-chunk decoder over every chunk. -/
def decode (input : List Nat) : Except String (List Nat) :=
  decodeGroups (chunks4 input)

/-- The body of the `chunks.for_each` closure in qbase64's `encode`
(`src/qbase64/src/main.rs` lines 117-145), which binds `mask: u32 = 63` and
builds a per-chunk `encoded` vector that it writes to the output sink. -/
def qencodeChunk (chunk : List Nat) : List Nat :=
  let mask : Nat := 63
  let l := chunk.length
  let b3 := (List.range l).foldl (fun b3 i => b3 ||| ((chunk.getD i 0) <<< (16 - i * 8))) 0
  ((List.range (l + 1)).map (fun i =>
    let shift := 18 - i * 6
    Char.toNat (B64TABLE.getD ((b3 &&& (mask <<< shift)) >>> shift) 'A')))
  ++ List.replicate (3 - l) padByte

/-- qbase64's `encode`: the bytes written to the output sink (each chunk's
4-byte vector, in input order) paired with the returned `Result<()>`, which is
always `Ok(())`. -/
def qencode (input : List Nat) : List Nat × Except String Unit :=
  (((chunks3 input).map qencodeChunk).flatten, Except.ok ())

/-- The symbol-scanning loop of qbase64's `decode`
(`src/qbase64/src/main.rs` lines 93-104), textually identical to base64's. -/
def qscanGroup : List Nat → Nat → Nat → Nat → Except String (Nat × Nat)
  | [], _, encoded, padCount => Except.ok (encoded, padCount)
  | c :: rest, i, encoded, padCount =>
    if c = padByte then
      qscanGroup rest (i + 1) encoded (padCount + 1)
    else
      match B64TABLE.findIdx? (fun x => x.toNat == c) with
      | some v => qscanGroup rest (i + 1) (encoded ||| (v <<< (18 - i * 6))) padCount
      | none => Except.error "invalid input"

/-- One iteration of qbase64's `decode` closure
(`src/qbase64/src/main.rs` lines 91-112): identical arithmetic to base64's,
but each byte is written to the output sink via `output.write(&[v as u8])`
instead of being pushed onto a vector. -/
def qdecodeChunk (chunk : List Nat) : Except String (List Nat) :=
  match qscanGroup chunk 0 0 0 with
  | Except.error e => Except.error e
  | Except.ok (encoded, padCount) =>
    Except.ok ((List.range (3 - padCount)).map (fun i =>
      let shift := 16 - i * 8
      (encoded &&& (255 <<< shift)) >>> shift))

/-- qbase64's `decode` over a chunk list: the bytes written to the sink before
the call returns, paired with the returned `Result<()>`.  Bytes written for
chunks preceding a failing chunk have already reached the sink when the error
propagates. -/
def qdecodeGroups : List (List Nat) → List Nat × Except String Unit
  | [] => ([], Except.ok ())
  | g :: gs =>
    match qdecodeChunk g with
    | Except.error e => ([], Except.error e)
    | Except.ok bytes =>
      let (rest, r) := qdecodeGroups gs
      (bytes ++ rest, r)

/-- qbase64's `decode` (`src/qbase64/src/main.rs` lines 86-115): chunk the
buffered input by 4 and run the per-chunk decoder, writing to the sink. -/
def qdecode (input : List Nat) : List Nat × Except String Unit :=
  qdecodeGroups (chunks4 input)

/-! ### Bit-arithmetic helpers

The `u32` accumulator manipulations of the source (`|`, `&`, `<<`, `>>`) are
related to plain division/remainder arithmetic once and for all here. -/

theorem lor_eq_add (a b k : Nat) (ha : a % 2 ^ k = 0) (hb : b < 2 ^ k) : a ||| b = a + b := by
  obtain ⟨c, hc⟩ : 2 ^ k ∣ a := Nat.dvd_of_mod_eq_zero ha
  subst hc
  rw [← Nat.mul_add_lt_is_or hb c]

theorem and_shl_shr (x m k : Nat) : (x &&& (m <<< k)) >>> k = (x >>> k) &&& m := by
  apply Nat.eq_of_testBit_eq
  intro i
  simp [Nat.testBit_shiftRight, Nat.testBit_and, Nat.testBit_shiftLeft, Nat.add_sub_cancel_left]

theorem extract6 (x k : Nat) : (x &&& (63 <<< k)) >>> k = x / 2 ^ k % 64 := by
  rw [and_shl_shr, Nat.shiftRight_eq_div_pow]
  have h : (63 : Nat) = 2 ^ 6 - 1 := by norm_num
  rw [h, Nat.and_pow_two_sub_one_eq_mod]

theorem extract8 (x k : Nat) : (x &&& (255 <<< k)) >>> k = x / 2 ^ k % 256 := by
  rw [and_shl_shr, Nat.shiftRight_eq_div_pow]
  have h : (255 : Nat) = 2 ^ 8 - 1 := by norm_num
  rw [h, Nat.and_pow_two_sub_one_eq_mod]

theorem and63 (x : Nat) : x &&& 63 = x % 64 := by
  have h : (63 : Nat) = 2 ^ 6 - 1 := by norm_num
  rw [h, Nat.and_pow_two_sub_one_eq_mod]

theorem and255 (x : Nat) : x &&& 255 = x % 256 := by
  have h : (255 : Nat) = 2 ^ 8 - 1 := by norm_num
  rw [h, Nat.and_pow_two_sub_one_eq_mod]

/-! ### Alphabet-table facts, established by computation over the 64 entries -/

theorem table_lookup : ∀ s, s < 64 →
    B64TABLE.findIdx? (fun x => x.toNat == (B64TABLE[s]?.getD 'A').toNat) = some s := by decide

theorem table_ne_pad : ∀ s, s < 64 → (B64TABLE[s]?.getD 'A').toNat ≠ padByte := by decide

/-! ### Characterizations of the per-chunk encoder -/

theorem encodeChunk_three (a b c : Nat) (ha : a < 256) (hb : b < 256) (hc : c < 256) :
    encodeChunk [a, b, c] =
      [(B64TABLE[a / 4]?.getD 'A').toNat,
       (B64TABLE[a % 4 * 16 + b / 16]?.getD 'A').toNat,
       (B64TABLE[b % 16 * 4 + c / 64]?.getD 'A').toNat,
       (B64TABLE[c % 64]?.getD 'A').toNat] := by
  have hb3 : a <<< 16 ||| b <<< 8 ||| c = a * 65536 + b * 256 + c := by
    rw [Nat.shiftLeft_eq, Nat.shiftLeft_eq]
    rw [lor_eq_add (a * 2 ^ 16) (b * 2 ^ 8) 16 (by omega) (by omega)]
    rw [lor_eq_add _ c 8 (by omega) (by omega)]
  simp only [encodeChunk, List.length_cons, List.length_nil]
  norm_num [List.range_succ]
  rw [hb3, extract6, extract6, extract6, and63]
  have e0 : (a * 65536 + b * 256 + c) / 2 ^ 18 % 64 = a / 4 := by omega
  have e1 : (a * 65536 + b * 256 + c) / 2 ^ 12 % 64 = a % 4 * 16 + b / 16 := by omega
  have e2 : (a * 65536 + b * 256 + c) / 2 ^ 6 % 64 = b % 16 * 4 + c / 64 := by omega
  have e3 : (a * 65536 + b * 256 + c) % 64 = c % 64 := by omega
  rw [e0, e1, e2, e3]
  exact ⟨rfl, rfl, rfl, rfl⟩

theorem encodeChunk_two (a b : Nat) (ha : a < 256) (hb : b < 256) :
    encodeChunk [a, b] =
      [(B64TABLE[a / 4]?.getD 'A').toNat,
       (B64TABLE[a % 4 * 16 + b / 16]?.getD 'A').toNat,
       (B64TABLE[b % 16 * 4]?.getD 'A').toNat,
       padByte] := by
  have hb3 : a <<< 16 ||| b <<< 8 = a * 65536 + b * 256 := by
    rw [Nat.shiftLeft_eq, Nat.shiftLeft_eq]
    rw [lor_eq_add (a * 2 ^ 16) (b * 2 ^ 8) 16 (by omega) (by omega)]
  simp only [encodeChunk, List.length_cons, List.length_nil]
  norm_num [List.range_succ]
  rw [hb3, extract6, extract6, extract6]
  have e0 : (a * 65536 + b * 256) / 2 ^ 18 % 64 = a / 4 := by omega
  have e1 : (a * 65536 + b * 256) / 2 ^ 12 % 64 = a % 4 * 16 + b / 16 := by omega
  have e2 : (a * 65536 + b * 256) / 2 ^ 6 % 64 = b % 16 * 4 := by omega
  rw [e0, e1, e2]
  exact ⟨rfl, rfl, rfl⟩

theorem encodeChunk_one (a : Nat) (ha : a < 256) :
    encodeChunk [a] =
      [(B64TABLE[a / 4]?.getD 'A').toNat,
       (B64TABLE[a % 4 * 16]?.getD 'A').toNat,
       padByte, padByte] := by
  simp only [encodeChunk, List.length_cons, List.length_nil]
  norm_num [List.range_succ]
  rw [Nat.shiftLeft_eq, extract6, extract6]
  have e0 : a * 2 ^ 16 / 2 ^ 18 % 64 = a / 4 := by omega
  have e1 : a * 2 ^ 16 / 2 ^ 12 % 64 = a % 4 * 16 := by omega
  rw [e0, e1]
  exact ⟨rfl, rfl, rfl⟩

/-! ### Characterizations of the per-chunk decoder on well-formed groups -/

theorem decodeChunk_data4 (s0 s1 s2 s3 : Nat)
    (h0 : s0 < 64) (h1 : s1 < 64) (h2 : s2 < 64) (h3 : s3 < 64) :
    decodeChunk [(B64TABLE[s0]?.getD 'A').toNat, (B64TABLE[s1]?.getD 'A').toNat,
                 (B64TABLE[s2]?.getD 'A').toNat, (B64TABLE[s3]?.getD 'A').toNat] =
      Except.ok [(s0 * 262144 + s1 * 4096 + s2 * 64 + s3) / 65536 % 256,
                 (s0 * 262144 + s1 * 4096 + s2 * 64 + s3) / 256 % 256,
                 (s0 * 262144 + s1 * 4096 + s2 * 64 + s3) % 256] := by
  have acc : ((s0 <<< 18 ||| s1 <<< 12) ||| s2 <<< 6) ||| s3
      = s0 * 262144 + s1 * 4096 + s2 * 64 + s3 := by
    rw [Nat.shiftLeft_eq, Nat.shiftLeft_eq, Nat.shiftLeft_eq]
    rw [lor_eq_add (s0 * 2 ^ 18) (s1 * 2 ^ 12) 18 (by omega) (by omega)]
    rw [lor_eq_add _ (s2 * 2 ^ 6) 12 (by omega) (by omega)]
    rw [lor_eq_add _ s3 6 (by omega) (by omega)]
  norm_num [decodeChunk, scanGroup,
    table_ne_pad s0 h0, table_lookup s0 h0, table_ne_pad s1 h1, table_lookup s1 h1,
    table_ne_pad s2 h2, table_lookup s2 h2, table_ne_pad s3 h3, table_lookup s3 h3,
    List.range_succ]
  rw [acc, extract8, extract8, and255]
  norm_num

theorem decodeChunk_data3 (s0 s1 s2 : Nat)
    (h0 : s0 < 64) (h1 : s1 < 64) (h2 : s2 < 64) :
    decodeChunk [(B64TABLE[s0]?.getD 'A').toNat, (B64TABLE[s1]?.getD 'A').toNat,
                 (B64TABLE[s2]?.getD 'A').toNat, padByte] =
      Except.ok [(s0 * 262144 + s1 * 4096 + s2 * 64) / 65536 % 256,
                 (s0 * 262144 + s1 * 4096 + s2 * 64) / 256 % 256] := by
  have acc : (s0 <<< 18 ||| s1 <<< 12) ||| s2 <<< 6
      = s0 * 262144 + s1 * 4096 + s2 * 64 := by
    rw [Nat.shiftLeft_eq, Nat.shiftLeft_eq, Nat.shiftLeft_eq]
    rw [lor_eq_add (s0 * 2 ^ 18) (s1 * 2 ^ 12) 18 (by omega) (by omega)]
    rw [lor_eq_add _ (s2 * 2 ^ 6) 12 (by omega) (by omega)]
  norm_num [decodeChunk, scanGroup,
    table_ne_pad s0 h0, table_lookup s0 h0, table_ne_pad s1 h1, table_lookup s1 h1,
    table_ne_pad s2 h2, table_lookup s2 h2,
    List.range_succ]
  rw [acc, extract8, extract8]
  norm_num

theorem decodeChunk_data2 (s0 s1 : Nat) (h0 : s0 < 64) (h1 : s1 < 64) :
    decodeChunk [(B64TABLE[s0]?.getD 'A').toNat, (B64TABLE[s1]?.getD 'A').toNat,
                 padByte, padByte] =
      Except.ok [(s0 * 262144 + s1 * 4096) / 65536 % 256] := by
  have acc : s0 <<< 18 ||| s1 <<< 12 = s0 * 262144 + s1 * 4096 := by
    rw [Nat.shiftLeft_eq, Nat.shiftLeft_eq]
    rw [lor_eq_add (s0 * 2 ^ 18) (s1 * 2 ^ 12) 18 (by omega) (by omega)]
  norm_num [decodeChunk, scanGroup,
    table_ne_pad s0 h0, table_lookup s0 h0, table_ne_pad s1 h1, table_lookup s1 h1,
    List.range_succ]
  rw [acc, extract8]
  norm_num

/-! ### Round-trip -/

theorem decode_encodeOut : ∀ B : List Nat, (∀ b ∈ B, b < 256) → decode (encodeOut B) = Except.ok B := by
  intro B
  induction B using chunks3.induct with
  | case1 =>
    intro _
    rfl
  | case2 a =>
    intro h
    have ha : a < 256 := h a (by simp)
    have h0 : a / 4 < 64 := by omega
    have h1 : a % 4 * 16 < 64 := by omega
    have hd := decodeChunk_data2 (a / 4) (a % 4 * 16) h0 h1
    have he : encodeOut [a] = encodeChunk [a] := by simp [encodeOut, chunks3]
    rw [he, encodeChunk_one a ha]
    simp [decode, chunks4, decodeGroups, hd]
    omega
  | case3 a b =>
    intro h
    have ha : a < 256 := h a (by simp)
    have hb : b < 256 := h b (by simp)
    have h0 : a / 4 < 64 := by omega
    have h1 : a % 4 * 16 + b / 16 < 64 := by omega
    have h2 : b % 16 * 4 < 64 := by omega
    have hd := decodeChunk_data3 (a / 4) (a % 4 * 16 + b / 16) (b % 16 * 4) h0 h1 h2
    have he : encodeOut [a, b] = encodeChunk [a, b] := by simp [encodeOut, chunks3]
    rw [he, encodeChunk_two a b ha hb]
    simp [decode, chunks4, decodeGroups, hd]
    omega
  | case4 a b c rest ih =>
    intro h
    have ha : a < 256 := h a (by simp)
    have hb : b < 256 := h b (by simp)
    have hc : c < 256 := h c (by simp)
    have h0 : a / 4 < 64 := by omega
    have h1 : a % 4 * 16 + b / 16 < 64 := by omega
    have h2 : b % 16 * 4 + c / 64 < 64 := by omega
    have h3 : c % 64 < 64 := by omega
    have hd := decodeChunk_data4 (a / 4) (a % 4 * 16 + b / 16) (b % 16 * 4 + c / 64) (c % 64) h0 h1 h2 h3
    have ihr : decode (encodeOut rest) = Except.ok rest := ih (fun x hx => h x (by simp [hx]))
    have he : encodeOut (a :: b :: c :: rest) = encodeChunk [a, b, c] ++ encodeOut rest := by
      simp [encodeOut, chunks3]
    rw [he, encodeChunk_three a b c ha hb hc]
    simp only [decode] at ihr ⊢
    simp [chunks4, decodeGroups, hd, ihr]
    omega

/-! ### Length and padding laws -/

theorem encodeChunk_length (ch : List Nat) (h : ch.length ≤ 3) : (encodeChunk ch).length = 4 := by
  simp [encodeChunk]
  omega

theorem encodeOut_length : ∀ B : List Nat, (encodeOut B).length = 4 * ((B.length + 2) / 3) := by
  intro B
  induction B using chunks3.induct with
  | case1 => rfl
  | case2 a =>
    have he : encodeOut [a] = encodeChunk [a] := by simp [encodeOut, chunks3]
    rw [he, encodeChunk_length [a] (by simp)]
    norm_num
  | case3 a b =>
    have he : encodeOut [a, b] = encodeChunk [a, b] := by simp [encodeOut, chunks3]
    rw [he, encodeChunk_length [a, b] (by simp)]
    norm_num
  | case4 a b c rest ih =>
    have he : encodeOut (a :: b :: c :: rest) = encodeChunk [a, b, c] ++ encodeOut rest := by
      simp [encodeOut, chunks3]
    rw [he]
    rw [List.length_append, encodeChunk_length [a, b, c] (by simp), ih]
    simp
    omega

theorem tableSym_ne_pad (s : Nat) : (B64TABLE[s]?.getD 'A').toNat ≠ padByte := by
  by_cases h : s < 64
  · exact table_ne_pad s h
  · have hl : B64TABLE.length ≤ s := by simp [B64TABLE]; omega
    rw [List.getElem?_eq_none hl]
    decide

theorem encodeChunk_count (ch : List Nat) :
    (encodeChunk ch).count padByte = 3 - ch.length := by
  simp only [encodeChunk, List.count_append]
  have hdata : ((List.range (ch.length + 1)).map (fun i =>
      let shift := 18 - i * 6
      Char.toNat (B64TABLE.getD ((((List.range ch.length).foldl
        (fun b3 i => b3 ||| ((ch.getD i 0) <<< (16 - i * 8))) 0) &&& (63 <<< shift)) >>> shift) 'A'))).count padByte = 0 := by
    rw [List.count_eq_zero]
    intro hmem
    rw [List.mem_map] at hmem
    obtain ⟨i, _, hi⟩ := hmem
    exact tableSym_ne_pad _ (by simpa using hi)
  rw [hdata, List.count_replicate_self]
  omega

theorem encodeChunk_pad_suffix (ch : List Nat) :
    List.IsSuffix (List.replicate (3 - ch.length) padByte) (encodeChunk ch) :=
  List.suffix_append _ _

theorem encodeOut_pad :
    ∀ B : List Nat, (encodeOut B).count padByte = (3 - B.length % 3) % 3 ∧
      List.IsSuffix (List.replicate ((3 - B.length % 3) % 3) padByte) (encodeOut B) := by
  intro B
  induction B using chunks3.induct with
  | case1 => exact ⟨rfl, by simp⟩
  | case2 a =>
    have he : encodeOut [a] = encodeChunk [a] := by simp [encodeOut, chunks3]
    rw [he]
    refine ⟨?_, ?_⟩
    · rw [encodeChunk_count [a]]
      simp only [List.length_cons, List.length_nil]
    · exact encodeChunk_pad_suffix [a]
  | case3 a b =>
    have he : encodeOut [a, b] = encodeChunk [a, b] := by simp [encodeOut, chunks3]
    rw [he]
    refine ⟨?_, ?_⟩
    · rw [encodeChunk_count [a, b]]
      simp only [List.length_cons, List.length_nil]
    · exact encodeChunk_pad_suffix [a, b]
  | case4 a b c rest ih =>
    have he : encodeOut (a :: b :: c :: rest) = encodeChunk [a, b, c] ++ encodeOut rest := by
      simp [encodeOut, chunks3]
    have hlen : (a :: b :: c :: rest).length % 3 = rest.length % 3 := by simp; omega
    rw [he, hlen]
    refine ⟨?_, ?_⟩
    · rw [List.count_append, encodeChunk_count [a, b, c], ih.1]
      simp only [List.length_cons, List.length_nil]
      omega
    · exact ih.2.trans (List.suffix_append _ _)

/-! ### Success and failure of the decoder scan -/

theorem pad_not_in_table : padByte ∉ tableCodes := by decide

theorem findIdx_of_mem (c : Nat) (hc : c ∈ tableCodes) :
    ∃ v, v < 64 ∧ B64TABLE.findIdx? (fun x => x.toNat == c) = some v := by
  rw [tableCodes, List.mem_map] at hc
  obtain ⟨x, hx, hxc⟩ := hc
  have hex : ∃ y, y ∈ B64TABLE ∧ (fun y : Char => y.toNat == c) y = true := ⟨x, hx, by simp [hxc]⟩
  refine ⟨B64TABLE.findIdx (fun y => y.toNat == c), ?_, List.findIdx?_eq_some_of_exists hex⟩
  have hlt := List.findIdx_lt_length_of_exists hex
  simpa [B64TABLE] using hlt

theorem findIdx_of_not_mem (c : Nat) (hc : c ∉ tableCodes) :
    B64TABLE.findIdx? (fun x => x.toNat == c) = none := by
  rw [List.findIdx?_eq_none_iff]
  intro x hx
  simp only [beq_eq_false_iff_ne, ne_eq]
  intro hxc
  exact hc (by rw [tableCodes, List.mem_map]; exact ⟨x, hx, hxc⟩)

theorem scanGroup_ok : ∀ (chunk : List Nat) (i e p : Nat),
    (∀ c ∈ chunk, c = padByte ∨ c ∈ tableCodes) →
    ∃ r, scanGroup chunk i e p = Except.ok r := by
  intro chunk
  induction chunk with
  | nil => exact fun i e p _ => ⟨(e, p), rfl⟩
  | cons c rest ih =>
    intro i e p h
    rcases h c (by simp) with hc | hc
    · simp only [scanGroup, if_pos hc]
      exact ih (i + 1) e (p + 1) (fun x hx => h x (by simp [hx]))
    · have hcp : c ≠ padByte := fun hh => pad_not_in_table (hh ▸ hc)
      obtain ⟨v, _, hfind⟩ := findIdx_of_mem c hc
      simp only [scanGroup, if_neg hcp, hfind]
      exact ih (i + 1) (e ||| v <<< (18 - i * 6)) p (fun x hx => h x (by simp [hx]))

theorem scanGroup_err : ∀ (chunk : List Nat) (i e p : Nat),
    (∃ c ∈ chunk, c ≠ padByte ∧ c ∉ tableCodes) →
    scanGroup chunk i e p = Except.error "invalid input" := by
  intro chunk
  induction chunk with
  | nil => rintro i e p ⟨c, hc, -⟩; simp at hc
  | cons c rest ih =>
    rintro i e p ⟨x, hx, hxp, hxt⟩
    rcases List.mem_cons.mp hx with rfl | hx
    · simp only [scanGroup, if_neg hxp, findIdx_of_not_mem x hxt]
    · by_cases hc : c = padByte
      · simp only [scanGroup, if_pos hc]
        exact ih (i + 1) e (p + 1) ⟨x, hx, hxp, hxt⟩
      · cases hfind : B64TABLE.findIdx? (fun y => y.toNat == c) with
        | none => simp only [scanGroup, if_neg hc, hfind]
        | some v =>
          simp only [scanGroup, if_neg hc, hfind]
          exact ih (i + 1) (e ||| v <<< (18 - i * 6)) p ⟨x, hx, hxp, hxt⟩

theorem scanGroup_err_msg : ∀ (chunk : List Nat) (i e p : Nat) (msg : String),
    scanGroup chunk i e p = Except.error msg → msg = "invalid input" := by
  intro chunk
  induction chunk with
  | nil => intro i e p msg h; exact absurd h (by simp [scanGroup])
  | cons c rest ih =>
    intro i e p msg h
    by_cases hc : c = padByte
    · rw [scanGroup, if_pos hc] at h
      exact ih _ _ _ _ h
    · rw [scanGroup, if_neg hc] at h
      cases hfind : B64TABLE.findIdx? (fun y => y.toNat == c) with
      | none => rw [hfind] at h; exact (Except.error.inj h).symm
      | some v => rw [hfind] at h; exact ih _ _ _ _ h

theorem decodeChunk_ok (g : List Nat) (h : ∀ c ∈ g, c = padByte ∨ c ∈ tableCodes) :
    ∃ out, decodeChunk g = Except.ok out := by
  obtain ⟨⟨e, p⟩, hr⟩ := scanGroup_ok g 0 0 0 h
  exact ⟨_, by rw [decodeChunk, hr]⟩

theorem decodeChunk_err (g : List Nat) (h : ∃ c ∈ g, c ≠ padByte ∧ c ∉ tableCodes) :
    decodeChunk g = Except.error "invalid input" := by
  rw [decodeChunk, scanGroup_err g 0 0 0 h]

theorem decodeChunk_err_msg (g : List Nat) (msg : String)
    (h : decodeChunk g = Except.error msg) : msg = "invalid input" := by
  rw [decodeChunk] at h
  cases hs : scanGroup g 0 0 0 with
  | error e => rw [hs] at h; exact scanGroup_err_msg g 0 0 0 msg (by rw [hs, Except.error.inj h])
  | ok r => rw [hs] at h; exact absurd h (by simp)

theorem chunks4_mem : ∀ (l g : List Nat), g ∈ chunks4 l → ∀ x ∈ g, x ∈ l := by
  intro l
  induction l using chunks4.induct with
  | case1 => simp [chunks4]
  | case2 a => intro g hg x hx; simp [chunks4] at hg; simpa [hg] using hx
  | case3 a b => intro g hg x hx; simp [chunks4] at hg; subst hg; simpa using hx
  | case4 a b c => intro g hg x hx; simp [chunks4] at hg; subst hg; simpa using hx
  | case5 a b c d rest ih =>
    intro g hg x hx
    simp only [chunks4, List.mem_cons] at hg
    rcases hg with rfl | hg
    · simp at hx
      rcases hx with rfl | rfl | rfl | rfl <;> simp
    · have := ih g hg x hx
      simp [this]

theorem mem_chunks4 : ∀ (l : List Nat) (x : Nat), x ∈ l → ∃ g ∈ chunks4 l, x ∈ g := by
  intro l
  induction l using chunks4.induct with
  | case1 => simp
  | case2 a => intro x hx; exact ⟨[a], by simp [chunks4], by simpa using hx⟩
  | case3 a b => intro x hx; exact ⟨[a, b], by simp [chunks4], by simpa using hx⟩
  | case4 a b c => intro x hx; exact ⟨[a, b, c], by simp [chunks4], by simpa using hx⟩
  | case5 a b c d rest ih =>
    intro x hx
    simp only [List.mem_cons] at hx
    rcases hx with rfl | rfl | rfl | rfl | hx
    · exact ⟨[x, b, c, d], by simp [chunks4], by simp⟩
    · exact ⟨[a, x, c, d], by simp [chunks4], by simp⟩
    · exact ⟨[a, b, x, d], by simp [chunks4], by simp⟩
    · exact ⟨[a, b, c, x], by simp [chunks4], by simp⟩
    · obtain ⟨g, hg, hxg⟩ := ih x hx
      exact ⟨g, by simp [chunks4, hg], hxg⟩

theorem decodeGroups_ok (gs : List (List Nat))
    (h : ∀ g ∈ gs, ∀ c ∈ g, c = padByte ∨ c ∈ tableCodes) :
    ∃ out, decodeGroups gs = Except.ok out := by
  induction gs with
  | nil => exact ⟨[], rfl⟩
  | cons g gs ih =>
    obtain ⟨o1, h1⟩ := decodeChunk_ok g (h g (by simp))
    obtain ⟨o2, h2⟩ := ih (fun g' hg' => h g' (by simp [hg']))
    exact ⟨o1 ++ o2, by rw [decodeGroups, h1, h2]⟩

theorem decodeGroups_err (gs : List (List Nat)) (g : List Nat) (hg : g ∈ gs)
    (he : decodeChunk g = Except.error "invalid input") :
    decodeGroups gs = Except.error "invalid input" := by
  induction gs with
  | nil => simp at hg
  | cons g' gs ih =>
    rcases List.mem_cons.mp hg with rfl | hg
    · rw [decodeGroups, he]
    · cases hd : decodeChunk g' with
      | error e =>
        rw [decodeGroups, hd, decodeChunk_err_msg g' e hd]
      | ok bytes =>
        rw [decodeGroups, hd, ih hg]

theorem decode_ok_of_valid (input : List Nat)
    (h : ∀ c ∈ input, c = padByte ∨ c ∈ tableCodes) :
    ∃ out, decode input = Except.ok out :=
  decodeGroups_ok (chunks4 input) (fun g hg c hcg => h c (chunks4_mem input g hg c hcg))

theorem decode_err_of_invalid (input : List Nat)
    (h : ∃ c ∈ input, c ≠ padByte ∧ c ∉ tableCodes) :
    decode input = Except.error "invalid input" := by
  obtain ⟨c, hc, hcp, hct⟩ := h
  obtain ⟨g, hg, hcg⟩ := mem_chunks4 input c hc
  exact decodeGroups_err (chunks4 input) g hg (decodeChunk_err g ⟨c, hcg, hcp, hct⟩)

/-! ### Interior pad symbols are tolerated -/

theorem decodeChunk_interior_pad (c0 c2 c3 : Nat)
    (h0 : c0 ∈ tableCodes) (h2 : c2 ∈ tableCodes) (h3 : c3 ∈ tableCodes) :
    ∃ out, decodeChunk [c0, padByte, c2, c3] = Except.ok out ∧ out.length = 2 := by
  obtain ⟨v0, _, hf0⟩ := findIdx_of_mem c0 h0
  obtain ⟨v2, _, hf2⟩ := findIdx_of_mem c2 h2
  obtain ⟨v3, _, hf3⟩ := findIdx_of_mem c3 h3
  have hp0 : c0 ≠ padByte := fun h => pad_not_in_table (h ▸ h0)
  have hp2 : c2 ≠ padByte := fun h => pad_not_in_table (h ▸ h2)
  have hp3 : c3 ≠ padByte := fun h => pad_not_in_table (h ▸ h3)
  have hscan : scanGroup [c0, padByte, c2, c3] 0 0 0
      = Except.ok ((v0 <<< 18 ||| v2 <<< 6) ||| v3, 1) := by
    simp [scanGroup, hp0, hp2, hp3, hf0, hf2, hf3]
  refine ⟨[((v0 <<< 18 ||| v2 <<< 6 ||| v3) &&& 255 <<< 16) >>> 16,
           ((v0 <<< 18 ||| v2 <<< 6 ||| v3) &&& 255 <<< 8) >>> 8], ?_, rfl⟩
  rw [decodeChunk, hscan]
  norm_num [List.range_succ]

theorem decode_interior_pad (c0 c2 c3 : Nat)
    (h0 : c0 ∈ tableCodes) (h2 : c2 ∈ tableCodes) (h3 : c3 ∈ tableCodes) :
    ∃ out, decode [c0, padByte, c2, c3] = Except.ok out ∧ out.length = 2 := by
  obtain ⟨out, hout, hlen⟩ := decodeChunk_interior_pad c0 c2 c3 h0 h2 h3
  refine ⟨out, ?_, hlen⟩
  rw [decode]
  have hch : chunks4 [c0, padByte, c2, c3] = [[c0, padByte, c2, c3]] := rfl
  rw [hch, decodeGroups, hout, decodeGroups]
  simp

/-! ### Groups made entirely of pad symbols produce no output -/

theorem decode_all_pads : ∀ k : Nat, decode (List.replicate (4 * k) padByte) = Except.ok [] := by
  intro k
  induction k with
  | zero => rfl
  | succ n ih =>
    have h4 : 4 * (n + 1) = 4 + 4 * n := by omega
    rw [h4, List.replicate_add]
    have hpad : decodeChunk [padByte, padByte, padByte, padByte] = Except.ok [] := rfl
    simp only [decode] at ih ⊢
    norm_num [List.replicate_succ, chunks4, decodeGroups, hpad, ih]

/-! ### The qbase64 functions compute the same codec -/

theorem qencodeChunk_eq : qencodeChunk = encodeChunk := rfl

theorem qscanGroup_eq : ∀ (chunk : List Nat) (i e p : Nat),
    qscanGroup chunk i e p = scanGroup chunk i e p := by
  intro chunk
  induction chunk with
  | nil => intros; rfl
  | cons c rest ih =>
    intro i e p
    rw [qscanGroup, scanGroup]
    by_cases hc : c = padByte
    · rw [if_pos hc, if_pos hc, ih]
    · rw [if_neg hc, if_neg hc]
      cases hfind : B64TABLE.findIdx? (fun y => y.toNat == c) with
      | none => simp only [hfind]
      | some v => simp only [hfind, ih]

theorem qdecodeChunk_eq (g : List Nat) : qdecodeChunk g = decodeChunk g := by
  rw [qdecodeChunk, decodeChunk, qscanGroup_eq]

theorem qdecodeGroups_of_ok : ∀ (gs : List (List Nat)) (out : List Nat),
    decodeGroups gs = Except.ok out → qdecodeGroups gs = (out, Except.ok ()) := by
  intro gs
  induction gs with
  | nil =>
    intro out h
    simp only [decodeGroups] at h
    obtain rfl : ([] : List Nat) = out := Except.ok.inj h
    rfl
  | cons g gs ih =>
    intro out h
    rw [decodeGroups] at h
    cases hd : decodeChunk g with
    | error e => rw [hd] at h; exact absurd h (by simp)
    | ok bytes =>
      rw [hd] at h
      cases hg : decodeGroups gs with
      | error e => rw [hg] at h; exact absurd h (by simp)
      | ok rest =>
        rw [hg] at h
        obtain rfl : bytes ++ rest = out := Except.ok.inj h
        rw [qdecodeGroups, qdecodeChunk_eq, hd, ih rest hg]

theorem qdecodeGroups_of_err : ∀ (gs : List (List Nat)) (msg : String),
    decodeGroups gs = Except.error msg → (qdecodeGroups gs).2 = Except.error msg := by
  intro gs
  induction gs with
  | nil => intro msg h; exact absurd h (by simp [decodeGroups])
  | cons g gs ih =>
    intro msg h
    rw [decodeGroups] at h
    cases hd : decodeChunk g with
    | error e2 =>
      rw [hd] at h
      rw [qdecodeGroups, qdecodeChunk_eq, hd]
      simpa using h
    | ok bytes =>
      rw [hd] at h
      cases hg : decodeGroups gs with
      | error e2 =>
        rw [hg] at h
        have htail := ih e2 hg
        rw [qdecodeGroups, qdecodeChunk_eq, hd]
        rcases hq : qdecodeGroups gs with ⟨w, r⟩
        rw [hq] at htail
        simp only [hq]
        simp only at htail
        simpa [htail] using h
      | ok rest => rw [hg] at h; exact absurd h (by simp)

/-! ### Claim theorems -/

/-- Claim C1: Round-trip — for every byte sequence `B` (elements < 256, as `u8`),
encoding succeeds and decoding the encoding returns exactly `B`. -/
theorem C1_roundtrip (B : List Nat) (hB : ∀ b ∈ B, b < 256) :
    ∃ out, encode B = Except.ok out ∧ decode out = Except.ok B :=
  ⟨encodeOut B, rfl, decode_encodeOut B hB⟩

theorem C1_roundtrip_witness :
    ∃ out, encode [72, 69, 76, 76, 79] = Except.ok out ∧
      decode out = Except.ok [72, 69, 76, 76, 79] :=
  C1_roundtrip [72, 69, 76, 76, 79] (by decide)

/-- Claim C2 (counterexample to the claim as stated): `decode` of the length-5 input
"SEVMT" does not fail with a MalformedLength error — the source has no length
check at all — it succeeds, emitting three bytes for the short final group. -/
theorem C2_counterexample :
    decode [83, 69, 86, 77, 84] = Except.ok [72, 69, 76, 76, 0, 0] := rfl

/-- Claim C2 (amended): `decode` performs no length validation; an input of any
length succeeds whenever every byte is the pad symbol or an alphabet symbol,
and an empty input decodes to empty output. -/
theorem C2_amended (input : List Nat)
    (h : ∀ c ∈ input, c = padByte ∨ c ∈ tableCodes) :
    (∃ out, decode input = Except.ok out) ∧ decode [] = Except.ok [] :=
  ⟨decode_ok_of_valid input h, rfl⟩

theorem C2_amended_witness :
    (∃ out, decode [83, 69, 86, 77, 84] = Except.ok out) ∧ decode [] = Except.ok [] :=
  C2_amended [83, 69, 86, 77, 84] (by decide)

/-- Claim C3: any input containing, in a non-pad position, a byte outside the
64-symbol alphabet makes the whole decode fail with the InvalidSymbol error
(`Err("invalid input")`); no partial output is returned. -/
theorem C3_invalid_symbol (input : List Nat)
    (h : ∃ c ∈ input, c ≠ padByte ∧ c ∉ tableCodes) :
    decode input = Except.error "invalid input" :=
  decode_err_of_invalid input h

theorem C3_invalid_symbol_witness :
    decode [83, 69, 86, 77, 35, 69, 56, 61] = Except.error "invalid input" :=
  C3_invalid_symbol [83, 69, 86, 77, 35, 69, 56, 61] ⟨35, by decide, by decide, by decide⟩

/-- Claim C4 (counterexample to the claim as stated): a pad symbol in an interior
(non-trailing) position of a group is tolerated: decode of "S=VM" succeeds
with two output bytes rather than failing with InvalidSymbol. -/
theorem C4_counterexample : decode [83, 61, 86, 77] = Except.ok [72, 5] := rfl

/-- Claim C4 (amended): the decoder accepts the pad symbol in any position of a
group, counting it and skipping it; a group with one interior pad and three
alphabet symbols decodes successfully and emits `3 - 1 = 2` bytes. -/
theorem C4_amended (c0 c2 c3 : Nat)
    (h0 : c0 ∈ tableCodes) (h2 : c2 ∈ tableCodes) (h3 : c3 ∈ tableCodes) :
    ∃ out, decode [c0, padByte, c2, c3] = Except.ok out ∧ out.length = 2 :=
  decode_interior_pad c0 c2 c3 h0 h2 h3

theorem C4_amended_witness :
    ∃ out, decode [83, padByte, 86, 77] = Except.ok out ∧ out.length = 2 :=
  C4_amended 83 86 77 (by decide) (by decide) (by decide)

/-- Claim C5: length law — encoding always succeeds and the output length is
`4 * ceil(len(B) / 3)` (in `Nat`, `(len + 2) / 3`); in particular the empty
sequence encodes to the empty sequence. -/
theorem C5_length_law :
    ∀ B : List Nat, (∃ out, encode B = Except.ok out ∧
      out.length = 4 * ((B.length + 2) / 3)) ∧ encode [] = Except.ok [] :=
  fun B => ⟨⟨encodeOut B, rfl, encodeOut_length B⟩, rfl⟩

/-- Claim C6: padding law — if `len(B) % 3 = 0` the encoding contains no pad symbol;
if `len(B) % 3 = 1` it contains exactly two pad symbols and ends with "==";
if `len(B) % 3 = 2` it contains exactly one pad symbol and ends with "=". -/
theorem C6_padding_law (B : List Nat) :
    encode B = Except.ok (encodeOut B) ∧
    (B.length % 3 = 0 → (encodeOut B).count padByte = 0) ∧
    (B.length % 3 = 1 → (encodeOut B).count padByte = 2 ∧
        List.IsSuffix [padByte, padByte] (encodeOut B)) ∧
    (B.length % 3 = 2 → (encodeOut B).count padByte = 1 ∧
        List.IsSuffix [padByte] (encodeOut B)) := by
  obtain ⟨hc, hs⟩ := encodeOut_pad B
  refine ⟨rfl, ?_, ?_, ?_⟩ <;> intro h <;> rw [h] at hc hs <;> norm_num at hc hs
  · exact hc
  · exact ⟨hc, by simpa [List.replicate] using hs⟩
  · exact ⟨hc, by simpa [List.replicate] using hs⟩

theorem C6_padding_law_witness :
    (encodeOut [0, 0, 0]).count padByte = 0 ∧
    ((encodeOut [0]).count padByte = 2 ∧
      List.IsSuffix [padByte, padByte] (encodeOut [0])) ∧
    ((encodeOut [0, 0]).count padByte = 1 ∧
      List.IsSuffix [padByte] (encodeOut [0, 0])) :=
  ⟨(C6_padding_law [0, 0, 0]).2.1 rfl,
   (C6_padding_law [0]).2.2.1 rfl,
   (C6_padding_law [0, 0]).2.2.2 rfl⟩

/-- Claim C7: encoding is total — for every input it returns `Ok`, and the empty
input produces empty output. -/
theorem C7_encode_total (B : List Nat) :
    (∃ out, encode B = Except.ok out) ∧ encode [] = Except.ok [] :=
  ⟨⟨encodeOut B, rfl⟩, rfl⟩

/-- Claim C8: the alphabet table is bijective over its 64 entries: the symbols are
pairwise distinct, the reverse lookup used by the decoder returns `i` for the
symbol at index `i` (hence symbolOf (indexOf (symbolOf i)) = symbolOf i), and
the pad symbol is not one of the 64 entries. -/
theorem C8_table_bijective :
    B64TABLE.Nodup ∧ B64TABLE.length = 64 ∧ ('=' ∉ B64TABLE) ∧
    (∀ i, i < 64 →
      B64TABLE.findIdx? (fun x => x.toNat == (B64TABLE[i]?.getD 'A').toNat) = some i ∧
      B64TABLE[(B64TABLE.findIdx? (fun x =>
          x.toNat == (B64TABLE[i]?.getD 'A').toNat)).getD 0]?.getD 'A'
        = B64TABLE[i]?.getD 'A') := by
  refine ⟨by decide, by decide, by decide, ?_⟩
  intro i hi
  refine ⟨table_lookup i hi, ?_⟩
  rw [table_lookup i hi]
  simp

theorem C8_table_bijective_witness :
    B64TABLE.findIdx? (fun x => x.toNat == (B64TABLE[18]?.getD 'A').toNat) = some 18 ∧
    B64TABLE[(B64TABLE.findIdx? (fun x =>
        x.toNat == (B64TABLE[18]?.getD 'A').toNat)).getD 0]?.getD 'A'
      = B64TABLE[18]?.getD 'A' :=
  C8_table_bijective.2.2.2 18 (by decide)

/-- Claim C9 (counterexample to the claim as stated): decode of "====" does return
a `Result` value, namely `Ok` with empty output — in the source `pad_count`
has inferred type `i32`, so `0..(3 - 4)` is the empty range and no subtraction
underflow occurs. -/
theorem C9_counterexample :
    decode [padByte, padByte, padByte, padByte] = Except.ok [] := rfl

/-- Claim C9 (amended): decode is panic-free on all-pad inputs; every group made of
four pad symbols contributes zero output bytes, so an input of `4*k` pad
symbols decodes to `Ok` with empty output. -/
theorem C9_amended : ∀ k : Nat, decode (List.replicate (4 * k) padByte) = Except.ok [] :=
  decode_all_pads

/-- Claim C10: the two binaries implement the same codec — qbase64's encode writes
exactly the bytes base64's encode returns (both always succeed), and
qbase64's decode succeeds exactly when base64's does, writing the same bytes
on success and failing with the same error otherwise. -/
theorem C10_equivalence (input : List Nat) :
    (qencode input = (encodeOut input, Except.ok ()) ∧
      encode input = Except.ok (encodeOut input)) ∧
    (∀ out, decode input = Except.ok out ↔ qdecode input = (out, Except.ok ())) ∧
    (∀ msg, decode input = Except.error msg ↔ (qdecode input).2 = Except.error msg) := by
  refine ⟨⟨rfl, rfl⟩, ?_, ?_⟩
  · intro out
    constructor
    · intro h
      rw [decode] at h
      rw [qdecode]
      exact qdecodeGroups_of_ok (chunks4 input) out h
    · intro h
      rw [qdecode] at h
      cases hd : decode input with
      | ok out2 =>
        have h2 := qdecodeGroups_of_ok (chunks4 input) out2 (by rw [decode] at hd; exact hd)
        rw [h2] at h
        have hout : out2 = out := congrArg Prod.fst h
        rw [hout]
      | error e =>
        have h2 := qdecodeGroups_of_err (chunks4 input) e (by rw [decode] at hd; exact hd)
        rw [h] at h2
        exact absurd h2 (by simp)
  · intro msg
    constructor
    · intro h
      rw [decode] at h
      rw [qdecode]
      exact qdecodeGroups_of_err (chunks4 input) msg h
    · intro h
      rw [qdecode] at h
      cases hd : decode input with
      | ok out2 =>
        have h2 := qdecodeGroups_of_ok (chunks4 input) out2 (by rw [decode] at hd; exact hd)
        rw [h2] at h
        exact absurd h (by simp)
      | error e =>
        have h2 := qdecodeGroups_of_err (chunks4 input) e (by rw [decode] at hd; exact hd)
        rw [h2] at h
        obtain rfl : e = msg := Except.error.inj h
        rfl

theorem C10_equivalence_witness :
    (qdecode [83, 69, 86, 77, 35, 69, 56, 61]).2 = Except.error "invalid input" :=
  ((C10_equivalence [83, 69, 86, 77, 35, 69, 56, 61]).2.2 "invalid input").mp rfl

end Qoreutils.Base64
